import Mathlib

/-!
Verification of the MCMC move engine in `src/moves.cpp` (outbreaker2):
`cpp_move_mu`, `cpp_move_t_inf` and `cpp_move_alpha`.

Embedding conventions:
* A parameter snapshot (`Rcpp::List param`) is a `Param` record holding the
  mutation rate `mu`, the infection-time vector `t_inf` and the ancestor
  vector `alpha` (values on the 1..N scale, `none` standing for
  `NA_INTEGER`).  Times and `mu` are rationals standing for C doubles.
* C doubles produced by the likelihood oracles are modelled by `Rval`:
  a finite value, plus IEEE-754 `+inf`, `-inf` and `NaN`; `rsub`, `rlt`,
  `rle` follow the IEEE rules (any comparison with NaN is false).
* `exp` on a finite argument is not rational, so the moves take the finite
  branch of the exponential as an explicit parameter `ex : ℚ → ℚ`; the
  special values are fixed by IEEE: `exp (-inf) = 0`, `exp (+inf) = +inf`,
  `exp NaN = NaN`.  Every confirmed theorem holds for all `ex`; concrete
  counterexamples instantiate `ex` with a step function that agrees with
  the real exponential on the decisive comparisons.
* The likelihood oracles (`cpp_ll_genetic`, `cpp_ll_timing`, `cpp_ll_all`,
  declared in `likelihoods.h`, outside this file's source) and the ancestor
  candidate sampler (`cpp_pick_possible_ancestor`, from `internals.h`) are
  external collaborators and enter as function parameters.
* The random stream enters as the draws each move actually consumes:
  `cpp_move_mu` one standard-normal draw `z` (so `R::rnorm(0, sd)` is
  `sd * z`) and one uniform draw `u`; `cpp_move_t_inf` one sign draw
  `us i` and one acceptance draw `ua i` per case; `cpp_move_alpha` the
  sampler's result `pick i` and one acceptance draw `ua i` per case.
* The Rcpp aliasing of `moves.cpp` is modelled exactly: `new_t_inf` /
  `new_alpha` alias the vector inside the cloned list, and the reject
  branch of `cpp_move_t_inf` (line 126) installs the ORIGINAL `t_inf`
  vector into the clone, while `old_loglike` is always computed from the
  original `param` (lines 108, 169).
-/

/-- A parameter snapshot: the contents of the `Rcpp::List param`
(`mu`, `t.inf`, `alpha`). -/
structure Param where
  mu : ℚ
  t_inf : List ℚ
  alpha : List (Option ℕ)
deriving DecidableEq

/-- An IEEE-754 double as produced by the log-likelihood oracles:
finite, `+inf`, `-inf` or `NaN`. -/
inductive Rval where
  | fin : ℚ → Rval
  | pinf : Rval
  | ninf : Rval
  | nan : Rval
deriving DecidableEq

/-- IEEE subtraction, used for `new_loglike - old_loglike`. -/
def rsub : Rval → Rval → Rval
  | Rval.nan, _ => Rval.nan
  | _, Rval.nan => Rval.nan
  | Rval.pinf, Rval.pinf => Rval.nan
  | Rval.pinf, _ => Rval.pinf
  | Rval.ninf, Rval.ninf => Rval.nan
  | Rval.ninf, _ => Rval.ninf
  | Rval.fin _, Rval.pinf => Rval.ninf
  | Rval.fin _, Rval.ninf => Rval.pinf
  | Rval.fin a, Rval.fin b => Rval.fin (a - b)

/-- IEEE exponential with the finite branch supplied by `ex`:
`exp (-inf) = 0`, `exp (+inf) = +inf`, `exp NaN = NaN`. -/
def rexp (ex : ℚ → ℚ) : Rval → Rval
  | Rval.fin x => Rval.fin (ex x)
  | Rval.pinf => Rval.pinf
  | Rval.ninf => Rval.fin 0
  | Rval.nan => Rval.nan

/-- IEEE strict `<` as used in `p_accept < unif_rand()`:
any comparison involving NaN is false. -/
def rlt : Rval → Rval → Bool
  | Rval.nan, _ => false
  | _, Rval.nan => false
  | Rval.ninf, Rval.ninf => false
  | Rval.ninf, _ => true
  | Rval.pinf, _ => false
  | Rval.fin _, Rval.ninf => false
  | Rval.fin _, Rval.pinf => true
  | Rval.fin a, Rval.fin b => decide (a < b)

/-- IEEE `≤`, used to state the spec's acceptance condition
`u <= exp(new_ll - old_ll)`: any comparison involving NaN is false. -/
def rle : Rval → Rval → Bool
  | Rval.nan, _ => false
  | _, Rval.nan => false
  | Rval.ninf, _ => true
  | _, Rval.pinf => true
  | Rval.pinf, _ => false
  | Rval.fin _, Rval.ninf => false
  | Rval.fin a, Rval.fin b => decide (a ≤ b)

/-- The time-shift proposal `unif_rand() > 0.5 ? 1 : -1` (moves.cpp:111). -/
def signOf (u : ℚ) : ℚ := if u > 1 / 2 then 1 else -1

/-- `sum(t_inf < t_inf[i])` (moves.cpp:166): the number of cases whose
infection time is strictly smaller than `ti`. -/
def countEarlier (t_inf : List ℚ) (ti : ℚ) : ℕ :=
  (t_inf.filter (fun x => decide (x < ti))).length

/-- `cpp_move_mu` (moves.cpp:34-65).  `llg` is `cpp_ll_genetic` applied to
`data` and `R_NilValue`; `z` is the standard-normal draw behind
`R::rnorm(0, sd_mu)`; `u` is the acceptance draw `unif_rand()`. -/
def cpp_move_mu (llg : Param → Rval) (ex : ℚ → ℚ) (sd_mu z u : ℚ)
    (param : Param) : Param :=
  let old_loglike := llg param
  let new_param := { param with mu := param.mu + sd_mu * z }
  let new_loglike := llg new_param
  let p_accept := rexp ex (rsub new_loglike old_loglike)
  if rlt p_accept (Rval.fin u) then { new_param with mu := param.mu }
  else new_param

/-- One iteration of the `cpp_move_t_inf` loop (moves.cpp:104-128).  The
state is the pair (contents of the cloned vector `new_t_inf`, vector
currently installed as `new_param["t.inf"]`).  `old_loglike` is computed
from the original `param` (line 108); the reject branch restores entry `i`
of the clone (line 125) and installs the ORIGINAL vector `t_inf` into
`new_param` (line 126). -/
def move_t_inf_step (llt : Param → Rval) (ex : ℚ → ℚ) (param : Param)
    (us ua : ℕ → ℚ) (st : List ℚ × List ℚ) (i : ℕ) : List ℚ × List ℚ :=
  let c := st.1
  let old_loglike := llt param
  let c' := c.set i (c.getD i 0 + signOf (us i))
  let new_loglike := llt { param with t_inf := c' }
  let p_accept := rexp ex (rsub new_loglike old_loglike)
  if rlt p_accept (Rval.fin (ua i)) then
    (c'.set i (param.t_inf.getD i 0), param.t_inf)
  else (c', c')

/-- `cpp_move_t_inf` (moves.cpp:92-132): a systematic scan over cases
`0..N-1`; the returned snapshot carries whatever vector is installed in
`new_param` after the last iteration. -/
def cpp_move_t_inf (llt : Param → Rval) (ex : ℚ → ℚ) (N : ℕ)
    (us ua : ℕ → ℚ) (param : Param) : Param :=
  let st := (List.range N).foldl (move_t_inf_step llt ex param us ua)
    (param.t_inf, param.t_inf)
  { param with t_inf := st.2 }

/-- Follows the spec's words (section 4.2), for comparison with
`move_t_inf_step`: `old_ll` is the timing log-likelihood of the CURRENT
scan state, and a rejection restores only case `i`'s value. -/
def spec_t_inf_step (llt : Param → Rval) (ex : ℚ → ℚ) (param : Param)
    (us ua : ℕ → ℚ) (cur : List ℚ) (i : ℕ) : List ℚ :=
  let old_loglike := llt { param with t_inf := cur }
  let cur' := cur.set i (cur.getD i 0 + signOf (us i))
  let new_loglike := llt { param with t_inf := cur' }
  let p_accept := rexp ex (rsub new_loglike old_loglike)
  if rlt p_accept (Rval.fin (ua i)) then cur else cur'

/-- Follows the spec's words (section 4.2): the infection-times sweep with
`old_ll` recomputed on the current state and per-case restore-on-reject. -/
def spec_move_t_inf (llt : Param → Rval) (ex : ℚ → ℚ) (N : ℕ)
    (us ua : ℕ → ℚ) (param : Param) : Param :=
  { param with
    t_inf := (List.range N).foldl (spec_t_inf_step llt ex param us ua)
      param.t_inf }

/-- One iteration of the `cpp_move_alpha` loop (moves.cpp:163-194).
`lla` is `cpp_ll_all` applied to `data`; the second argument is the case
selector (`none` for `R_NilValue`, `some (i+1)` for the 1..N-scale index).
The guard, `old_loglike` and the restored value all read the ORIGINAL
`param`; `_old_loglike2` / `_new_loglike2` are computed by the source but
never used in the accept/reject decision. -/
def move_alpha_step (lla : Param → Option ℕ → Rval) (ex : ℚ → ℚ)
    (param : Param) (pick : ℕ → ℕ) (ua : ℕ → ℚ)
    (na : List (Option ℕ)) (i : ℕ) : List (Option ℕ) :=
  if param.alpha.getD i none ≠ none ∧
      0 < countEarlier param.t_inf (param.t_inf.getD i 0) then
    let old_loglike := lla param none
    let _old_loglike2 := lla param (some (i + 1))
    let na' := na.set i (some (pick i))
    let new_loglike := lla { param with alpha := na' } none
    let _new_loglike2 := lla { param with alpha := na' } (some (i + 1))
    let p_accept := rexp ex (rsub new_loglike old_loglike)
    if rlt p_accept (Rval.fin (ua i)) then na'.set i (param.alpha.getD i none)
    else na'
  else na

/-- `cpp_move_alpha` (moves.cpp:150-197).  `pick i` is the value returned
by `cpp_pick_possible_ancestor(t_inf, i)` (on the 1..N scale). -/
def cpp_move_alpha (lla : Param → Option ℕ → Rval) (ex : ℚ → ℚ) (N : ℕ)
    (pick : ℕ → ℕ) (ua : ℕ → ℚ) (param : Param) : Param :=
  { param with
    alpha := (List.range N).foldl (move_alpha_step lla ex param pick ua)
      param.alpha }

/-- Step function for the exponential: agrees with the real exponential on
every comparison against a uniform draw of 1/2 made in the concrete runs
below (`exp x ≥ 1 > 1/2` for `x ≥ 0`, and `exp x < 1/2` for `x ≤ -1`). -/
def exStep (x : ℚ) : ℚ := if 0 ≤ x then 1 else 0

/-- Exponential stand-in that makes every acceptance test reject against a
positive uniform draw. -/
def exZero (_ : ℚ) : ℚ := 0

/-- Two cases, both infected at time 0, no ancestries. -/
def pInit : Param := ⟨0, [0, 0], [none, none]⟩

/-- Two cases, case 2 infected after case 1 and ancestored by it. -/
def pAl : Param := ⟨0, [0, 5], [none, some 1]⟩

/-- The spec's section-8 scenario: three cases at times 0, 5, 10 with the
chain 1 → 2 → 3; case 1 is the index case. -/
def pAl3 : Param := ⟨0, [0, 5, 10], [none, some 1, some 2]⟩

/-- Timing oracle rewarding the state in which only case 0 moved to 1. -/
def lltC1 (q : Param) : Rval :=
  if q.t_inf = [1, 0] then Rval.fin 100 else Rval.fin 0

/-- Timing oracle penalising the state in which both cases moved to 1. -/
def lltC2 (q : Param) : Rval :=
  if q.t_inf = [1, 1] then Rval.fin (-1) else Rval.fin 0

/-- Genetic oracle returning NaN on every state with `mu ≠ 0`. -/
def llgNan (q : Param) : Rval :=
  if q.mu = 0 then Rval.fin 0 else Rval.nan

/-- Genetic oracle returning `-inf` everywhere. -/
def llgNinf (_ : Param) : Rval := Rval.ninf

/-- Genetic oracle constant at 0. -/
def llgZero (_ : Param) : Rval := Rval.fin 0

/-- Timing oracle constant at 0. -/
def lltZero (_ : Param) : Rval := Rval.fin 0

/-- Composite oracle constant at 0. -/
def llaZero (_ : Param) (_ : Option ℕ) : Rval := Rval.fin 0

/-- Composite oracle: 0 on whole-population calls, 5 on case-restricted
calls. -/
def llaW1 (_ : Param) (c : Option ℕ) : Rval :=
  match c with
  | none => Rval.fin 0
  | some _ => Rval.fin 5

/-- Composite oracle: 0 on whole-population calls, NaN on case-restricted
calls. -/
def llaW2 (_ : Param) (c : Option ℕ) : Rval :=
  match c with
  | none => Rval.fin 0
  | some _ => Rval.nan

/-- Genetic oracle: finite at `mu = 0`, `-inf` on every other `mu`. -/
def llgNinfMu (s : Param) : Rval :=
  if s.mu = 0 then Rval.fin 0 else Rval.ninf

/-- Timing oracle failing exactly on case 1 (0-based): `-inf` on any
state in which case 1's infection time differs from `pAl`'s, finite
otherwise; the other cases' times are unconstrained, so their proposals
can still be accepted. -/
def lltNinfCase (s : Param) : Rval :=
  if s.t_inf.getD 1 0 = pAl.t_inf.getD 1 0 then Rval.fin 0 else Rval.ninf

/-- Composite oracle failing exactly on case 2 (0-based): `-inf` on any
state in which case 2's ancestor differs from `pAl3`'s, finite otherwise;
the other cases' ancestors are unconstrained. -/
def llaNinfCase (s : Param) (_ : Option ℕ) : Rval :=
  if s.alpha.getD 2 none = pAl3.alpha.getD 2 none then Rval.fin 0
  else Rval.ninf

/-! ### List access lemmas -/

theorem getD_set_self {α : Type} (l : List α) (i : ℕ) (a d : α)
    (h : i < l.length) : (l.set i a).getD i d = a := by
  induction l generalizing i with
  | nil => simp at h
  | cons x xs ih =>
    cases i with
    | zero => rfl
    | succ n =>
      simp only [List.set_cons_succ, List.getD_cons_succ]
      exact ih n (by simpa using h)

theorem getD_set_ne {α : Type} (l : List α) (i j : ℕ) (a d : α)
    (h : i ≠ j) : (l.set i a).getD j d = l.getD j d := by
  induction l generalizing i j with
  | nil => rfl
  | cons x xs ih =>
    cases i with
    | zero =>
      cases j with
      | zero => exact absurd rfl h
      | succ m => rfl
    | succ n =>
      cases j with
      | zero => rfl
      | succ m =>
        simp only [List.set_cons_succ, List.getD_cons_succ]
        exact ih n m (fun hnm => h (by rw [hnm]))

theorem set_getD_self {α : Type} (l : List α) (i : ℕ) (d : α) :
    l.set i (l.getD i d) = l := by
  induction l generalizing i with
  | nil => rfl
  | cons x xs ih =>
    cases i with
    | zero => rfl
    | succ n =>
      simp only [List.set_cons_succ, List.getD_cons_succ]
      rw [ih n]

/-! ### Fold lemmas -/

theorem foldl_keeps {α β : Type} (f : β → α → β) (P : β → Prop) :
    ∀ (L : List α) (b : β), P b →
      (∀ b' a, a ∈ L → P b' → P (f b' a)) → P (L.foldl f b) := by
  intro L
  induction L with
  | nil => intro b hb _; exact hb
  | cons x xs ih =>
    intro b hb hstep
    exact ih (f b x) (hstep b x (List.mem_cons_self x xs) hb)
      (fun b' a ha hb' => hstep b' a (List.mem_cons_of_mem x ha) hb')

theorem foldl_fun_ext {α β : Type} (f g : β → α → β)
    (h : ∀ b a, f b a = g b a) :
    ∀ (L : List α) (b : β), L.foldl f b = L.foldl g b := by
  intro L
  induction L with
  | nil => intro b; rfl
  | cons x xs ih =>
    intro b
    simp only [List.foldl_cons]
    rw [h b x]
    exact ih (g b x)

theorem foldl_range_fix {β : Type} (f : β → ℕ → β) (b : β) :
    ∀ N : ℕ, (∀ j, j < N → f b j = b) → (List.range N).foldl f b = b := by
  intro N
  induction N with
  | zero => intro _; rfl
  | succ n ih =>
    intro h
    rw [List.range_succ, List.foldl_append,
      ih (fun j hj => h j (Nat.lt_succ_of_lt hj))]
    simpa using h n (Nat.lt_succ_self n)

/-! ### Claim theorems -/

/-- Claim C1: the claim says the baseline `old_ll` of the infection-times
move is the timing log-likelihood of the current scan state, reflecting
already-accepted updates to earlier cases.  The code computes
`cpp_ll_timing(data, param, R_NilValue)` on the ORIGINAL input snapshot at
every iteration (moves.cpp:108).  At this concrete input, case 0's +1 move
is accepted; the scan state is then `[1, 0]` with timing log-likelihood
100, while the original snapshot `[0, 0]` has log-likelihood 0.  With
`old_ll` taken from the original snapshot the code accepts case 1's move
(returning `[1, 1]`), whereas the sweep described by the spec rejects it
(returning `[1, 0]`). -/
theorem move_t_inf_uses_original_old_ll :
    (cpp_move_t_inf lltC1 exStep 2 (fun _ => 1) (fun _ => 1 / 2) pInit).t_inf
      = [1, 1] ∧
    (spec_move_t_inf lltC1 exStep 2 (fun _ => 1) (fun _ => 1 / 2) pInit).t_inf
      = [1, 0] := by
  norm_num [cpp_move_t_inf, move_t_inf_step, spec_move_t_inf, spec_t_inf_step,
    lltC1, exStep, signOf, rlt, rexp, rsub, pInit, List.range_succ]

/-- Claim C2: the claim says a rejection at case `i` restores only case
`i`'s own entry, so values already accepted for earlier cases persist in
the returned snapshot.  The reject branch of the code (moves.cpp:126)
installs the ORIGINAL `t_inf` vector into the returned list, so when the
last scanned case is rejected every accepted earlier update is dropped.
At this concrete input case 0's +1 move is accepted and case 1's move is
rejected: the code returns the original `[0, 0]`, while the sweep
described by the spec returns `[1, 0]`. -/
theorem move_t_inf_reject_drops_accepted_values :
    (cpp_move_t_inf lltC2 exStep 2 (fun _ => 1) (fun _ => 1 / 2) pInit).t_inf
      = [0, 0] ∧
    (spec_move_t_inf lltC2 exStep 2 (fun _ => 1) (fun _ => 1 / 2) pInit).t_inf
      = [1, 0] := by
  norm_num [cpp_move_t_inf, move_t_inf_step, spec_move_t_inf, spec_t_inf_step,
    lltC2, exStep, signOf, rlt, rexp, rsub, pInit, List.range_succ]

/-- Claim C9: with `sd_mu = 0` the Gaussian perturbation `sd_mu * z` is 0,
so the mutation-rate move returns a snapshot whose `mu` equals the input
snapshot's `mu`, for every oracle, random stream and input snapshot. -/
theorem move_mu_sd_zero_fixed (llg : Param → Rval) (ex : ℚ → ℚ)
    (z u : ℚ) (param : Param) :
    (cpp_move_mu llg ex 0 z u param).mu = param.mu := by
  simp only [cpp_move_mu]
  split <;> simp

/-- Claim C10: each move mutates only its own parameter field: the
mutation-rate move leaves `t_inf` and `alpha` unchanged, the
infection-times move leaves `mu` and `alpha` unchanged, and the ancestry
move leaves `mu` and `t_inf` unchanged, for every oracle, stream and
input snapshot. -/
theorem moves_touch_only_own_field :
    (∀ (llg : Param → Rval) (ex : ℚ → ℚ) (sd z u : ℚ) (param : Param),
      (cpp_move_mu llg ex sd z u param).t_inf = param.t_inf ∧
      (cpp_move_mu llg ex sd z u param).alpha = param.alpha) ∧
    (∀ (llt : Param → Rval) (ex : ℚ → ℚ) (N : ℕ) (us ua : ℕ → ℚ)
      (param : Param),
      (cpp_move_t_inf llt ex N us ua param).mu = param.mu ∧
      (cpp_move_t_inf llt ex N us ua param).alpha = param.alpha) ∧
    (∀ (lla : Param → Option ℕ → Rval) (ex : ℚ → ℚ) (N : ℕ)
      (pick : ℕ → ℕ) (ua : ℕ → ℚ) (param : Param),
      (cpp_move_alpha lla ex N pick ua param).mu = param.mu ∧
      (cpp_move_alpha lla ex N pick ua param).t_inf = param.t_inf) := by
  refine ⟨fun llg ex sd z u param => ?_, fun llt ex N us ua param => ⟨rfl, rfl⟩,
    fun lla ex N pick ua param => ⟨rfl, rfl⟩⟩
  simp only [cpp_move_mu]
  split <;> exact ⟨rfl, rfl⟩

/-- IEEE `u ≤ p` and `p < u` are complementary whenever `p` is not NaN. -/
theorem rle_fin_iff_not_rlt (u : ℚ) (p : Rval) (h : p ≠ Rval.nan) :
    rle (Rval.fin u) p = true ↔ rlt p (Rval.fin u) = false := by
  cases p with
  | fin b =>
    simp only [rle, rlt, decide_eq_true_eq, decide_eq_false_iff_not]
    exact not_lt.symm
  | pinf => simp [rle, rlt]
  | ninf => simp [rle, rlt]
  | nan => exact absurd rfl h

/-- Claim C4, counterexample: when both genetic log-likelihood calls
return `-inf`, the acceptance term is `exp(-inf - -inf) = NaN`; the draw
`u = 1/2` does NOT satisfy `u <= p` (IEEE comparisons with NaN are false),
so the claim requires the returned `mu` to be the pre-proposal value 0 —
but the code's test `p_accept < unif_rand()` is also false on NaN, so the
proposed value 1 is kept. -/
theorem move_mu_accept_consistency_cex :
    rle (Rval.fin (1 / 2))
      (rexp exStep (rsub (llgNinf { pInit with mu := pInit.mu + 1 * 1 })
        (llgNinf pInit))) = false ∧
    (cpp_move_mu llgNinf exStep 1 1 (1 / 2) pInit).mu = 1 ∧
    (1 : ℚ) ≠ pInit.mu := by
  refine ⟨rfl, ?_, by norm_num [pInit]⟩
  norm_num [cpp_move_mu, llgNinf, rsub, rexp, rlt, pInit]

/-- Claim C4 (amended): for the mutation-rate move with a fixed random
stream, PROVIDED the acceptance term `exp(new_ll - old_ll)` is not NaN:
if the acceptance draw `u` satisfies `u <= exp(new_ll - old_ll)` then the
returned snapshot's `mu` equals the proposed value `mu + sd_mu * z`;
otherwise it equals the input snapshot's `mu`, exactly. -/
theorem move_mu_accept_consistency_amended (llg : Param → Rval)
    (ex : ℚ → ℚ) (sd z u : ℚ) (param : Param)
    (h : rexp ex (rsub (llg { param with mu := param.mu + sd * z })
      (llg param)) ≠ Rval.nan) :
    (rle (Rval.fin u) (rexp ex (rsub (llg { param with mu := param.mu + sd * z })
        (llg param))) = true →
      (cpp_move_mu llg ex sd z u param).mu = param.mu + sd * z) ∧
    (rle (Rval.fin u) (rexp ex (rsub (llg { param with mu := param.mu + sd * z })
        (llg param))) = false →
      (cpp_move_mu llg ex sd z u param).mu = param.mu) := by
  have hiff := rle_fin_iff_not_rlt u _ h
  constructor <;> intro hle
  · simp only [cpp_move_mu, hiff.mp hle, Bool.false_eq_true, if_false]
  · have hr : rlt (rexp ex (rsub (llg { param with mu := param.mu + sd * z })
        (llg param))) (Rval.fin u) = true := by
      rcases Bool.eq_false_or_eq_true (rlt (rexp ex
        (rsub (llg { param with mu := param.mu + sd * z }) (llg param)))
        (Rval.fin u)) with hrt | hrf
      · exact hrt
      · exact absurd (hiff.mpr hrf) (by simp [hle])
    simp only [cpp_move_mu, hr, if_true]

/-- Claim C4, witness for the amended theorem: with a constant oracle the
ratio is `exp 0`, which is not NaN; the draw `u = 1` satisfies
`u <= exp 0 = 1`, and the returned `mu` is the proposed `0 + 1 * 1`. -/
theorem move_mu_accept_consistency_amended_witness :
    (cpp_move_mu llgZero exStep 1 1 1 pInit).mu = pInit.mu + 1 * 1 :=
  (move_mu_accept_consistency_amended llgZero exStep 1 1 1 pInit
    (by simp [llgZero, rsub, rexp])).1
    (by norm_num [llgZero, rsub, rexp, rle, exStep, pInit])

/-- Claim C5, counterexample: the genetic oracle returns NaN (a non-finite
value) for the candidate state with `mu = 1`, yet the candidate IS
accepted: the code's rejection test `p_accept < unif_rand()` is false when
`p_accept` is NaN, so the returned `mu` is the proposed 1, not the
pre-proposal 0. -/
theorem move_mu_nonfinite_candidate_cex :
    llgNan { pInit with mu := pInit.mu + 1 * 1 } = Rval.nan ∧
    (cpp_move_mu llgNan exStep 1 1 (1 / 2) pInit).mu = 1 ∧
    (1 : ℚ) ≠ pInit.mu := by
  refine ⟨by norm_num [llgNan, pInit], ?_, by norm_num [pInit]⟩
  norm_num [cpp_move_mu, llgNan, rsub, rexp, rlt, pInit]

/-- The proposal shift `unif_rand() > 0.5 ? 1 : -1` is never 0. -/
theorem signOf_ne_zero (u : ℚ) : signOf u ≠ 0 := by
  unfold signOf
  split <;> norm_num

/-- If the acceptance test at case `j` rejects when the scan state still
equals the input vector, the `cpp_move_t_inf` iteration fixes the state
`(t_inf, t_inf)`: the clone gets entry `j` restored and the original
vector is installed. -/
theorem t_inf_step_fix (llt : Param → Rval) (ex : ℚ → ℚ) (param : Param)
    (us ua : ℕ → ℚ) (j : ℕ)
    (h : rlt (rexp ex (rsub (llt { param with
        t_inf := param.t_inf.set j (param.t_inf.getD j 0 + signOf (us j)) })
      (llt param))) (Rval.fin (ua j)) = true) :
    move_t_inf_step llt ex param us ua (param.t_inf, param.t_inf) j
      = (param.t_inf, param.t_inf) := by
  simp only [move_t_inf_step, h, if_true]
  rw [List.set_set, set_getD_self]

/-- If the acceptance test at case `j` rejects (whenever case `j` is
eligible) when the scan state still equals the input ancestry vector, the
`cpp_move_alpha` iteration fixes `param.alpha`. -/
theorem alpha_step_fix_reject (lla : Param → Option ℕ → Rval) (ex : ℚ → ℚ)
    (param : Param) (pick : ℕ → ℕ) (ua : ℕ → ℚ) (j : ℕ)
    (h : param.alpha.getD j none ≠ none →
      0 < countEarlier param.t_inf (param.t_inf.getD j 0) →
      rlt (rexp ex (rsub
        (lla { param with alpha := param.alpha.set j (some (pick j)) } none)
        (lla param none))) (Rval.fin (ua j)) = true) :
    move_alpha_step lla ex param pick ua param.alpha j = param.alpha := by
  by_cases hg : param.alpha.getD j none ≠ none ∧
      0 < countEarlier param.t_inf (param.t_inf.getD j 0)
  · have hr := h hg.1 hg.2
    simp only [move_alpha_step, if_pos hg, hr, if_true]
    rw [List.set_set, set_getD_self]
  · simp only [move_alpha_step, if_neg hg]

/-- Claim C8: for each of the three moves, if the random stream is such
that every acceptance test performed in the sweep rejects, the returned
snapshot equals the input snapshot (so `mu`, `t_inf` and `alpha` are all
unchanged).  For the two sweeps the per-case acceptance test is stated on
the input snapshot, which under all-rejection is the state each test
actually sees. -/
theorem all_reject_identity :
    (∀ (llg : Param → Rval) (ex : ℚ → ℚ) (sd z u : ℚ) (param : Param),
      rlt (rexp ex (rsub (llg { param with mu := param.mu + sd * z })
        (llg param))) (Rval.fin u) = true →
      cpp_move_mu llg ex sd z u param = param) ∧
    (∀ (llt : Param → Rval) (ex : ℚ → ℚ) (N : ℕ) (us ua : ℕ → ℚ)
      (param : Param),
      (∀ j, j < N → rlt (rexp ex (rsub (llt { param with
          t_inf := param.t_inf.set j (param.t_inf.getD j 0 + signOf (us j)) })
        (llt param))) (Rval.fin (ua j)) = true) →
      cpp_move_t_inf llt ex N us ua param = param) ∧
    (∀ (lla : Param → Option ℕ → Rval) (ex : ℚ → ℚ) (N : ℕ)
      (pick : ℕ → ℕ) (ua : ℕ → ℚ) (param : Param),
      (∀ j, j < N → param.alpha.getD j none ≠ none →
        0 < countEarlier param.t_inf (param.t_inf.getD j 0) →
        rlt (rexp ex (rsub
          (lla { param with alpha := param.alpha.set j (some (pick j)) } none)
          (lla param none))) (Rval.fin (ua j)) = true) →
      cpp_move_alpha lla ex N pick ua param = param) := by
  refine ⟨?_, ?_, ?_⟩
  · intro llg ex sd z u param h
    simp only [cpp_move_mu, h, if_true]
  · intro llt ex N us ua param h
    show { param with
      t_inf := ((List.range N).foldl (move_t_inf_step llt ex param us ua)
        (param.t_inf, param.t_inf)).2 } = param
    rw [foldl_range_fix _ _ N
      (fun j hj => t_inf_step_fix llt ex param us ua j (h j hj))]
  · intro lla ex N pick ua param h
    show { param with
      alpha := (List.range N).foldl (move_alpha_step lla ex param pick ua)
        param.alpha } = param
    rw [foldl_range_fix _ _ N
      (fun j hj => alpha_step_fix_reject lla ex param pick ua j (h j hj))]

/-- Claim C8, witness: with the exponential stand-in constantly 0 the
acceptance term is `exp(0 - 0) = 0 < u = 1`, so every test rejects, and
each move returns its input snapshot unchanged. -/
theorem all_reject_identity_witness :
    cpp_move_mu llgZero exZero 1 1 1 pInit = pInit ∧
    cpp_move_t_inf lltZero exZero 2 (fun _ => 1) (fun _ => 1) pInit = pInit ∧
    cpp_move_alpha llaZero exZero 2 (fun _ => 1) (fun _ => 1) pAl = pAl :=
  ⟨all_reject_identity.1 llgZero exZero 1 1 1 pInit
      (by norm_num [llgZero, rsub, rexp, rlt, exZero]),
    all_reject_identity.2.1 lltZero exZero 2 (fun _ => 1) (fun _ => 1) pInit
      (by intro j hj; norm_num [lltZero, rsub, rexp, rlt, exZero]),
    all_reject_identity.2.2 llaZero exZero 2 (fun _ => 1) (fun _ => 1) pAl
      (by intro j hj h1 h2; norm_num [llaZero, rsub, rexp, rlt, exZero])⟩

/-- Every outcome of a `cpp_move_alpha` iteration at case `j` is either
`na` unchanged (ineligible case) or — when the eligibility guard holds —
`na` with entry `j` set to the sampler's candidate (accept) or to the
original ancestor (reject). -/
theorem move_alpha_step_shape (lla : Param → Option ℕ → Rval) (ex : ℚ → ℚ)
    (param : Param) (pick : ℕ → ℕ) (ua : ℕ → ℚ)
    (na : List (Option ℕ)) (j : ℕ) :
    move_alpha_step lla ex param pick ua na j = na ∨
    ((param.alpha.getD j none ≠ none ∧
        0 < countEarlier param.t_inf (param.t_inf.getD j 0)) ∧
      (move_alpha_step lla ex param pick ua na j = na.set j (some (pick j)) ∨
        move_alpha_step lla ex param pick ua na j
          = na.set j (param.alpha.getD j none))) := by
  by_cases hg : param.alpha.getD j none ≠ none ∧
      0 < countEarlier param.t_inf (param.t_inf.getD j 0)
  · right
    refine ⟨hg, ?_⟩
    simp only [move_alpha_step, if_pos hg]
    split
    · right
      rw [List.set_set]
    · left
      rfl
  · left
    simp only [move_alpha_step, if_neg hg]

/-- Claim C7: a case `i` that is ineligible for the ancestry move — its
ancestor is the sentinel `none`, or no case has a strictly earlier
infection time — keeps its input ancestor in the returned snapshot, for
every oracle and every random stream (`pick`, `ua`). -/
theorem move_alpha_ineligible_untouched (lla : Param → Option ℕ → Rval)
    (ex : ℚ → ℚ) (N : ℕ) (pick : ℕ → ℕ) (ua : ℕ → ℚ) (param : Param) (i : ℕ)
    (h : param.alpha.getD i none = none ∨
      countEarlier param.t_inf (param.t_inf.getD i 0) = 0) :
    (cpp_move_alpha lla ex N pick ua param).alpha.getD i none
      = param.alpha.getD i none := by
  show ((List.range N).foldl (move_alpha_step lla ex param pick ua)
    param.alpha).getD i none = param.alpha.getD i none
  refine foldl_keeps _ (fun na => na.getD i none = param.alpha.getD i none)
    (List.range N) param.alpha rfl ?_
  intro na j hj hna
  rcases move_alpha_step_shape lla ex param pick ua na j with hs | ⟨hg, hset⟩
  · rw [hs]
    exact hna
  · by_cases hji : j = i
    · subst hji
      rcases h with h1 | h2
      · exact absurd h1 hg.1
      · rw [h2] at hg
        exact absurd hg.2 (lt_irrefl 0)
    · rcases hset with hs | hs <;> rw [hs, getD_set_ne _ _ _ _ _ hji] <;>
        exact hna

/-- Claim C7, witness: the spec's three-case scenario; case 0 has the
sentinel ancestor and is untouched by a full ancestry sweep. -/
theorem move_alpha_ineligible_untouched_witness :
    (cpp_move_alpha llaZero exStep 3 (fun _ => 1) (fun _ => 1 / 2)
      pAl3).alpha.getD 0 none = pAl3.alpha.getD 0 none :=
  move_alpha_ineligible_untouched llaZero exStep 3 (fun _ => 1)
    (fun _ => 1 / 2) pAl3 0 (Or.inl rfl)

/-- Claim C6: the accept/reject decisions of the ancestry sweep depend
only on the whole-population composite log-likelihood: two oracles that
agree on every whole-population call (`none` selector) but may differ
arbitrarily on case-restricted calls produce identical returned snapshots
under the same random stream. -/
theorem move_alpha_whole_pop_only (lla1 lla2 : Param → Option ℕ → Rval)
    (ex : ℚ → ℚ) (N : ℕ) (pick : ℕ → ℕ) (ua : ℕ → ℚ) (param : Param)
    (h : ∀ q : Param, lla1 q none = lla2 q none) :
    cpp_move_alpha lla1 ex N pick ua param
      = cpp_move_alpha lla2 ex N pick ua param := by
  have hstep : ∀ (na : List (Option ℕ)) (j : ℕ),
      move_alpha_step lla1 ex param pick ua na j
        = move_alpha_step lla2 ex param pick ua na j := by
    intro na j
    simp only [move_alpha_step, h]
  exact congrArg (fun l => { param with alpha := l })
    (foldl_fun_ext _ _ hstep (List.range N) param.alpha)

/-- Claim C6, witness: two oracles agreeing on whole-population calls and
wildly different (5 vs NaN) on case-restricted calls give the same
ancestry sweep result. -/
theorem move_alpha_whole_pop_only_witness :
    cpp_move_alpha llaW1 exStep 2 (fun _ => 1) (fun _ => 1 / 2) pAl
      = cpp_move_alpha llaW2 exStep 2 (fun _ => 1) (fun _ => 1 / 2) pAl :=
  move_alpha_whole_pop_only llaW1 llaW2 exStep 2 (fun _ => 1) (fun _ => 1 / 2)
    pAl (fun _ => rfl)

/-- Claim C3: after one ancestry sweep, if the candidate sampler returns
only cases with strictly earlier infection time (for every case it can be
called on) and the input snapshot satisfies the ancestor-precedes-
descendant invariant, then every case of the returned snapshot with a
non-sentinel ancestor satisfies `t_inf[alpha[i]] < t_inf[i]` (ancestor
values are on the 1..N scale, hence the `- 1` when indexing `t_inf`): the
move never accepts a candidate ancestor with infection time greater than
or equal to the case's own. -/
theorem move_alpha_preserves_time_order (lla : Param → Option ℕ → Rval)
    (ex : ℚ → ℚ) (N : ℕ) (pick : ℕ → ℕ) (ua : ℕ → ℚ) (param : Param)
    (hpick : ∀ j, j < N → param.alpha.getD j none ≠ none →
      0 < countEarlier param.t_inf (param.t_inf.getD j 0) →
      param.t_inf.getD (pick j - 1) 0 < param.t_inf.getD j 0)
    (hinv : ∀ k, k < param.alpha.length →
      ∀ a, param.alpha.getD k none = some a →
      param.t_inf.getD (a - 1) 0 < param.t_inf.getD k 0) :
    ∀ k, k < (cpp_move_alpha lla ex N pick ua param).alpha.length →
      ∀ a, (cpp_move_alpha lla ex N pick ua param).alpha.getD k none
        = some a →
      (cpp_move_alpha lla ex N pick ua param).t_inf.getD (a - 1) 0 <
        (cpp_move_alpha lla ex N pick ua param).t_inf.getD k 0 := by
  have main := foldl_keeps (move_alpha_step lla ex param pick ua)
    (fun na => na.length = param.alpha.length ∧
      ∀ k, k < na.length → ∀ a, na.getD k none = some a →
        param.t_inf.getD (a - 1) 0 < param.t_inf.getD k 0)
    (List.range N) param.alpha ⟨rfl, hinv⟩ ?_
  · intro k hk a hka
    exact main.2 k hk a hka
  · intro na j hj hna
    rcases move_alpha_step_shape lla ex param pick ua na j with hs | ⟨hg, hset⟩
    · rw [hs]
      exact hna
    · have hjN : j < N := List.mem_range.mp hj
      rcases hset with hs | hs
      · rw [hs]
        refine ⟨by simp [hna.1], ?_⟩
        intro k hk a hka
        have hk' : k < na.length := by simpa using hk
        by_cases hkj : k = j
        · subst hkj
          rw [getD_set_self _ _ _ _ hk'] at hka
          have ha : pick k = a := by injection hka
          rw [← ha]
          exact hpick k hjN hg.1 hg.2
        · rw [getD_set_ne _ _ _ _ _ (fun hji => hkj hji.symm)] at hka
          exact hna.2 k hk' a hka
      · rw [hs]
        refine ⟨by simp [hna.1], ?_⟩
        intro k hk a hka
        have hk' : k < na.length := by simpa using hk
        by_cases hkj : k = j
        · subst hkj
          rw [getD_set_self _ _ _ _ hk'] at hka
          exact hinv k (hna.1 ▸ hk') a hka
        · rw [getD_set_ne _ _ _ _ _ (fun hji => hkj hji.symm)] at hka
          exact hna.2 k hk' a hka

/-- Claim C3, witness: on the two-case snapshot `pAl` with a sampler that
always proposes case 1 (whose time is 0 < 5), the returned snapshot has
case 2 ancestored by a strictly earlier case. -/
theorem move_alpha_preserves_time_order_witness :
    (cpp_move_alpha llaZero exStep 2 (fun _ => 1) (fun _ => 1 / 2)
      pAl).t_inf.getD 0 0 <
    (cpp_move_alpha llaZero exStep 2 (fun _ => 1) (fun _ => 1 / 2)
      pAl).t_inf.getD 1 0 :=
  move_alpha_preserves_time_order llaZero exStep 2 (fun _ => 1)
    (fun _ => 1 / 2) pAl
    (by
      intro j hj h1 h2
      interval_cases j
      · exact absurd rfl h1
      · norm_num [pAl])
    (by
      intro k hk a hka
      have hk2 : k < 2 := by simpa [pAl] using hk
      interval_cases k
      · exact absurd hka (by simp [pAl])
      · have : a = 1 := by
          have h1 : (some 1 : Option ℕ) = some a := hka
          injection h1 with h2
          exact h2.symm
        subst this
        norm_num [pAl])
    1
    (by
      norm_num [cpp_move_alpha, move_alpha_step, llaZero, exStep, rsub,
        rexp, rlt, pAl, countEarlier, List.range_succ])
    1
    (by
      norm_num [cpp_move_alpha, move_alpha_step, llaZero, exStep, rsub,
        rexp, rlt, pAl, countEarlier, List.range_succ])

/-- Claim C5 (amended): for every move, if the oracle returns NEGATIVE
INFINITY for the affected case's candidate state while the current
state's log-likelihood is finite and that case's acceptance draw is
positive, the candidate is never accepted: the move (a total function, so
no exception) returns the affected case's parameter at its pre-proposal
value — regardless of what happens at the other cases of the sweep, whose
proposals remain free to be accepted or rejected.  (The original claim's
inclusion of NaN fails: a NaN acceptance term keeps the candidate, see
the counterexample.)  For the sweeps the oracle hypothesis is per-case:
`-inf` on any state in which case `i`'s entry differs from the input's —
this covers case `i`'s actual candidate whatever the surrounding scan
state is, and constrains no other proposal; the current state's
log-likelihood is `llt param` / `lla param none` because the code always
computes the baseline from the original input snapshot (moves.cpp:108,
169). -/
theorem neginf_candidate_rejected :
    (∀ (llg : Param → Rval) (ex : ℚ → ℚ) (sd z u : ℚ) (param : Param) (L : ℚ),
      llg { param with mu := param.mu + sd * z } = Rval.ninf →
      llg param = Rval.fin L → 0 < u →
      cpp_move_mu llg ex sd z u param = param) ∧
    (∀ (llt : Param → Rval) (ex : ℚ → ℚ) (N : ℕ) (us ua : ℕ → ℚ)
      (param : Param) (L : ℚ) (i : ℕ),
      i < param.t_inf.length →
      llt param = Rval.fin L →
      (∀ s : Param, s.t_inf.getD i 0 ≠ param.t_inf.getD i 0 →
        llt s = Rval.ninf) →
      0 < ua i →
      (cpp_move_t_inf llt ex N us ua param).t_inf.getD i 0
        = param.t_inf.getD i 0) ∧
    (∀ (lla : Param → Option ℕ → Rval) (ex : ℚ → ℚ) (N : ℕ)
      (pick : ℕ → ℕ) (ua : ℕ → ℚ) (param : Param) (L : ℚ) (i : ℕ),
      i < param.alpha.length →
      lla param none = Rval.fin L →
      (∀ s : Param, s.alpha.getD i none ≠ param.alpha.getD i none →
        lla s none = Rval.ninf) →
      0 < ua i →
      (cpp_move_alpha lla ex N pick ua param).alpha.getD i none
        = param.alpha.getD i none) := by
  refine ⟨?_, ?_, ?_⟩
  · intro llg ex sd z u param L hcand hold hu
    simp only [cpp_move_mu, hcand, hold]
    have hr : rlt (rexp ex (rsub Rval.ninf (Rval.fin L))) (Rval.fin u)
        = true := by simp [rsub, rexp, rlt, hu]
    rw [hr]
    simp
  · intro llt ex N us ua param L i hil hfin hnin hu
    have main := foldl_keeps (move_t_inf_step llt ex param us ua)
      (fun st => st.1.length = param.t_inf.length ∧
        st.1.getD i 0 = param.t_inf.getD i 0 ∧
        st.2.getD i 0 = param.t_inf.getD i 0)
      (List.range N) (param.t_inf, param.t_inf) ⟨rfl, rfl, rfl⟩ ?_
    · exact main.2.2
    · intro st j hj hst
      by_cases hji : j = i
      · subst hji
        have hjl : j < st.1.length := by
          rw [hst.1]
          exact hil
        have hne : (st.1.set j (st.1.getD j 0 + signOf (us j))).getD j 0
            ≠ param.t_inf.getD j 0 := by
          rw [getD_set_self _ _ _ _ hjl, hst.2.1]
          intro heq
          exact signOf_ne_zero (us j) (by linarith)
        have hcand := hnin { param with
          t_inf := st.1.set j (st.1.getD j 0 + signOf (us j)) } hne
        simp only [move_t_inf_step, hcand, hfin]
        have hr : rlt (rexp ex (rsub Rval.ninf (Rval.fin L)))
            (Rval.fin (ua j)) = true := by
          simp [rsub, rexp, rlt, hu]
        rw [hr]
        simp only [if_true]
        refine ⟨by simp [hst.1], ?_, by trivial⟩
        rw [List.set_set, getD_set_self _ _ _ _ hjl]
      · simp only [move_t_inf_step]
        split
        · refine ⟨by simp [hst.1], ?_, by trivial⟩
          rw [List.set_set, getD_set_ne _ _ _ _ _ hji]
          exact hst.2.1
        · refine ⟨by simp [hst.1], ?_, ?_⟩ <;>
            (rw [getD_set_ne _ _ _ _ _ hji]; exact hst.2.1)
  · intro lla ex N pick ua param L i hil hfin hnin hu
    have main := foldl_keeps (move_alpha_step lla ex param pick ua)
      (fun na => na.length = param.alpha.length ∧
        na.getD i none = param.alpha.getD i none)
      (List.range N) param.alpha ⟨rfl, rfl⟩ ?_
    · exact main.2
    · intro na j hj hna
      by_cases hji : j = i
      · subst hji
        by_cases hg : param.alpha.getD j none ≠ none ∧
            0 < countEarlier param.t_inf (param.t_inf.getD j 0)
        · have hjl : j < na.length := by
            rw [hna.1]
            exact hil
          by_cases hpj : (some (pick j) : Option ℕ) = na.getD j none
          · have hstep : move_alpha_step lla ex param pick ua na j = na := by
              simp only [move_alpha_step, if_pos hg]
              rw [hpj]
              simp only [set_getD_self]
              rw [← hna.2]
              simp only [set_getD_self, ite_self]
            rw [hstep]
            exact hna
          · have hne : (na.set j (some (pick j))).getD j none
                ≠ param.alpha.getD j none := by
              rw [getD_set_self _ _ _ _ hjl, ← hna.2]
              exact hpj
            have hcand := hnin
              { param with alpha := na.set j (some (pick j)) } hne
            simp only [move_alpha_step, if_pos hg]
            rw [hcand, hfin]
            have hr : rlt (rexp ex (rsub Rval.ninf (Rval.fin L)))
                (Rval.fin (ua j)) = true := by
              simp [rsub, rexp, rlt, hu]
            rw [hr]
            simp only [if_true]
            refine ⟨by simp [hna.1], ?_⟩
            rw [List.set_set, getD_set_self _ _ _ _ hjl]
        · simp only [move_alpha_step, if_neg hg]
          exact hna
      · rcases move_alpha_step_shape lla ex param pick ua na j
          with hs | ⟨_, hset⟩
        · rw [hs]
          exact hna
        · rcases hset with hs | hs <;> rw [hs] <;>
            exact ⟨by simp [hna.1], by
              rw [getD_set_ne _ _ _ _ _ hji]
              exact hna.2⟩

/-- Claim C5, witness for the amended theorem: oracles that fail (`-inf`)
exactly on one case's moved entry and are finite elsewhere; that case's
returned value equals its pre-proposal value.  In the infection-times
instance case 0's proposal is genuinely accepted during the sweep while
the failing case 1 is restored; in the ancestry instance case 1's
proposal is accepted while the failing case 2 is restored. -/
theorem neginf_candidate_rejected_witness :
    cpp_move_mu llgNinfMu exStep 1 1 (1 / 2) pInit = pInit ∧
    (cpp_move_t_inf lltNinfCase exStep 2 (fun _ => 1) (fun _ => 1 / 2)
      pAl).t_inf.getD 1 0 = pAl.t_inf.getD 1 0 ∧
    (cpp_move_alpha llaNinfCase exStep 3 (fun _ => 1) (fun _ => 1 / 2)
      pAl3).alpha.getD 2 none = pAl3.alpha.getD 2 none :=
  ⟨neginf_candidate_rejected.1 llgNinfMu exStep 1 1 (1 / 2) pInit 0
      (by norm_num [llgNinfMu, pInit]) (by norm_num [llgNinfMu, pInit])
      (by norm_num),
    neginf_candidate_rejected.2.1 lltNinfCase exStep 2 (fun _ => 1)
      (fun _ => 1 / 2) pAl 0 1 (by simp [pAl])
      (by simp [lltNinfCase])
      (fun s hs => by simp only [lltNinfCase, if_neg hs])
      (by norm_num),
    neginf_candidate_rejected.2.2 llaNinfCase exStep 3 (fun _ => 1)
      (fun _ => 1 / 2) pAl3 0 2 (by simp [pAl3])
      (by simp [llaNinfCase])
      (fun s hs => by simp only [llaNinfCase, if_neg hs])
      (by norm_num)⟩
